import Mathlib

/-!
Shallow embedding of the matrix-digital-rain program (src/main.rs).

Modelling conventions:
* Randomness: `rand`'s thread-local generator is modelled as an explicit
  stream of naturals (`Rng`) threaded through every operation;
  `rng.gen_range(0..n)` becomes `genRange`, which returns `none` exactly
  when the Rust call would panic (empty range `0..0`) and otherwise some
  value in `[0, n)`.
* Panics: Rust panics (empty `gen_range` range, `Vec` index out of
  bounds) are modelled as `none` of an `Option` result.
* Machine integers: `usize` becomes `Nat`, `isize` becomes `Int`
  (terminal dimensions are tiny, so the Rust code itself assumes no
  overflow); `u8` brightness becomes `Nat` with the saturating
  subtraction of `u8::saturating_sub` being `Nat` truncated subtraction.
* `f32` arithmetic in `color` is modelled as exact rational arithmetic;
  `f32::round` (round half away from zero, applied here to non-negative
  values only) becomes `fun q => ⌊q + 1/2⌋`.
* Terminal output is modelled as a list of events (`OutEvent`): a
  foreground-color escape, a printed character, or the `"\r\n"` line
  break written by `Screen::print`.
-/

namespace Rain

/-- Deterministic model of the thread-local random generator: an infinite
stream of naturals together with the index of the next draw. -/
structure Rng where
  stream : Nat → Nat
  idx : Nat

/-- Draw the next raw value from the stream. -/
def Rng.next (rng : Rng) : Nat × Rng :=
  (rng.stream rng.idx, ⟨rng.stream, rng.idx + 1⟩)

/-- Model of `rng.gen_range(0..n)`: panics (`none`) on the empty range
`0..0`, otherwise returns a value in `[0, n)`. -/
def genRange (rng : Rng) (n : Nat) : Option (Nat × Rng) :=
  if n = 0 then none
  else
    let p := rng.next
    some (p.1 % n, p.2)

/-- Model of `rng.gen_range('A'..='Z')`: the range is non-empty, so this
never panics; it returns one of the 26 uppercase letters. -/
def genUpper (rng : Rng) : Char × Rng :=
  let p := rng.next
  (Char.ofNat ('A'.toNat + p.1 % 26), p.2)

/-- Embedding of `fn color(brightness: u8) -> Rgb`:
`v = brightness / 255.0; r = v.powi(7); g = v.powi(1); b = v.powi(4);
Rgb((r*255.0).round() as u8, (g*255.0).round() as u8, (b*255.0).round() as u8)`,
with `f32` modelled as exact rationals and `round` as `⌊· + 1/2⌋`
(all rounded quantities are non-negative). -/
def color (brightness : Nat) : Int × Int × Int :=
  let v : ℚ := brightness / 255
  let r := v ^ 7
  let g := v ^ 1
  let b := v ^ 4
  (⌊r * 255 + 1/2⌋, ⌊g * 255 + 1/2⌋, ⌊b * 255 + 1/2⌋)

/-- Embedding of `struct Symbol { char: char, brightness: u8 }`. -/
structure Symbol where
  char : Char
  brightness : Nat
deriving DecidableEq

/-- Embedding of `impl Default for Symbol`: a black space. -/
def Symbol.default : Symbol := ⟨' ', 0⟩

/-- Embedding of `Symbol::darken`: `brightness.saturating_sub(10)`
(`Nat` subtraction is saturating). -/
def Symbol.darken (s : Symbol) : Symbol :=
  ⟨s.char, s.brightness - 10⟩

/-- Embedding of `Symbol::set`: replace the character and bring the
symbol to full brightness. -/
def Symbol.set (_s : Symbol) (char : Char) : Symbol :=
  ⟨char, 255⟩

/-- One item written to the terminal: a foreground-color escape, a
character, or the `"\r\n"` line break. -/
inductive OutEvent where
  | setFg : Int × Int × Int → OutEvent
  | char : Char → OutEvent
  | crlf : OutEvent
deriving DecidableEq

/-- Embedding of `Symbol::print`: write the foreground-color escape for
the current brightness, then the character. -/
def Symbol.print (s : Symbol) : List OutEvent :=
  [OutEvent.setFg (color s.brightness), OutEvent.char s.char]

/-- Visible text of an output event (color escapes print no text). -/
def OutEvent.text : OutEvent → String
  | OutEvent.setFg _ => ""
  | OutEvent.char c => String.singleton c
  | OutEvent.crlf => "\r\n"

/-- Visible text of a whole event list. -/
def textOf (es : List OutEvent) : String :=
  String.join (es.map OutEvent.text)

/-- Embedding of `struct Column { symbols: Vec<Symbol> }`. -/
structure Column where
  symbols : List Symbol
deriving DecidableEq

/-- Embedding of `Column::new`: `height` default symbols. -/
def Column.new (height : Nat) : Column :=
  ⟨List.replicate height Symbol.default⟩

/-- Embedding of `Column::darken`: darken every symbol. -/
def Column.darken (c : Column) : Column :=
  ⟨c.symbols.map Symbol.darken⟩

/-- Embedding of `Column::set`: `self.symbols[row].set(char)`; `none`
models the index-out-of-bounds panic of `self.symbols[row]`. -/
def Column.set (c : Column) (row : Nat) (char : Char) : Option Column :=
  if h : row < c.symbols.length then
    some ⟨c.symbols.set row ((c.symbols.get ⟨row, h⟩).set char)⟩
  else none

/-- Embedding of `Column::print_symbol`: `self.symbols[row].print(out)`;
`none` models the index-out-of-bounds panic. -/
def Column.print_symbol (c : Column) (row : Nat) : Option (List OutEvent) :=
  if h : row < c.symbols.length then some ((c.symbols.get ⟨row, h⟩).print)
  else none

/-- Embedding of `struct Droplet { row: isize, col: usize }`. -/
structure Droplet where
  row : Int
  col : Nat
deriving DecidableEq

/-- Embedding of `Droplet::new_random`:
`row = -(rng.gen_range(0..height) as isize), col = rng.gen_range(0..width)`
(the `row` draw happens first, as in the Rust struct literal). -/
def Droplet.new_random (rng : Rng) (width height : Nat) :
    Option (Droplet × Rng) := do
  let (r, rng1) ← genRange rng height
  let (c, rng2) ← genRange rng1 width
  pure (⟨-(r : Int), c⟩, rng2)

/-- Embedding of `Droplet::update`: `row += 1`; if `row >= height`,
redraw `col` from `[0, width)` and reset `row` to `0`. -/
def Droplet.update (d : Droplet) (rng : Rng) (width height : Nat) :
    Option (Droplet × Rng) :=
  let row := d.row + 1
  if (height : Int) ≤ row then do
    let (c, rng1) ← genRange rng width
    pure (⟨0, c⟩, rng1)
  else
    pure (⟨row, d.col⟩, rng)

/-- Embedding of `struct Screen`. -/
structure Screen where
  width : Nat
  height : Nat
  columns : List Column
  droplets : List Droplet

/-- Draw `n` fresh droplets in order, threading the generator, as
`(0..width).map(|_| Droplet::new_random(&mut rng, width, height))` does. -/
def newDroplets (width height : Nat) : Nat → Rng → Option (List Droplet × Rng)
  | 0, rng => some ([], rng)
  | n + 1, rng => do
    let (d, rng1) ← Droplet.new_random rng width height
    let (ds, rng2) ← newDroplets width height n rng1
    pure (d :: ds, rng2)

/-- Embedding of `Screen::new`: `width` copies of a fresh column of the
given height, and `width` random droplets. -/
def Screen.new (rng : Rng) (width height : Nat) : Option (Screen × Rng) := do
  let (ds, rng1) ← newDroplets width height width rng
  pure (⟨width, height, List.replicate width (Column.new height), ds⟩, rng1)

/-- Print the symbol at the given row of every column, left to right
(the inner loop of `Screen::print`). -/
def printColumns (cols : List Column) (row : Nat) : Option (List OutEvent) :=
  match cols with
  | [] => some []
  | c :: cs => do
    let es ← c.print_symbol row
    let rest ← printColumns cs row
    pure (es ++ rest)

/-- Embedding of `Screen::print`: for each row `0..height`, print every
column's symbol at that row, then write `"\r\n"`. -/
def Screen.print (s : Screen) : Option (List OutEvent) := do
  let rows ← (List.range s.height).mapM (fun row => do
    let es ← printColumns s.columns row
    pure (es ++ [OutEvent.crlf]))
  pure rows.flatten

/-- Embedding of `Screen::darken`: darken every column. -/
def Screen.darken (s : Screen) : Screen :=
  { s with columns := s.columns.map Column.darken }

/-- Body of the loop of `Screen::update_droplets` over the droplet list:
update each droplet, and when its new row converts to a `usize`
(`row.try_into()`, i.e. the row is non-negative), set a fresh random
uppercase letter at `columns[droplet.col]`, row `droplet.row`; `none`
models the index panics of `self.columns[droplet.col]` and
`Column::set`. -/
def updateDropletsAux (width height : Nat) :
    List Droplet → List Column → Rng → Option (List Column × List Droplet × Rng)
  | [], cols, rng => some (cols, [], rng)
  | d :: ds, cols, rng =>
    match d.update rng width height with
    | none => none
    | some (d1, rng1) =>
      match d1.row.toNat' with
      | some r =>
        if h : d1.col < cols.length then
          match (cols.get ⟨d1.col, h⟩).set r (genUpper rng1).1 with
          | none => none
          | some c1 =>
            match updateDropletsAux width height ds (cols.set d1.col c1) (genUpper rng1).2 with
            | none => none
            | some (cols2, ds2, rng3) => some (cols2, d1 :: ds2, rng3)
        else none
      | none =>
        match updateDropletsAux width height ds cols rng1 with
        | none => none
        | some (cols2, ds2, rng3) => some (cols2, d1 :: ds2, rng3)

/-- Embedding of `Screen::update_droplets`. -/
def Screen.update_droplets (s : Screen) (rng : Rng) : Option (Screen × Rng) := do
  let (cols, ds, rng1) ← updateDropletsAux s.width s.height s.droplets s.columns rng
  pure ({ s with columns := cols, droplets := ds }, rng1)

/-- Operations the frame loop performs on the screen state. -/
inductive Op where
  | print
  | darken
  | update

/-- One screen operation as a state transition; `print` reads but does
not change the state. -/
def Screen.step (s : Screen) (rng : Rng) : Op → Option (Screen × Rng)
  | Op.print => some (s, rng)
  | Op.darken => some (s.darken, rng)
  | Op.update => s.update_droplets rng

/-- Run a sequence of screen operations from a state. -/
def Screen.run (s : Screen) (rng : Rng) : List Op → Option (Screen × Rng)
  | [] => some (s, rng)
  | op :: ops => do
    let (s1, rng1) ← s.step rng op
    s1.run rng1 ops

/-- A fixed random stream used for concrete instances. -/
def rng0 : Rng := ⟨fun _ => 0, 0⟩

-- ### C3

/-- C3: for every symbol whose brightness lies in `0..=255`,
`Symbol::darken` sets the brightness to `max (0, b - 10)` and leaves the
character unchanged; in particular brightness `0` stays `0`. -/
theorem darken_saturates (s : Symbol) (h : s.brightness ≤ 255) :
    (Symbol.darken s).char = s.char ∧
    ((Symbol.darken s).brightness : Int) = max 0 ((s.brightness : Int) - 10) ∧
    (s.brightness = 0 → (Symbol.darken s).brightness = 0) := by
  refine ⟨rfl, ?_, ?_⟩
  · simp only [Symbol.darken]
    omega
  · intro h0
    simp [Symbol.darken, h0]

/-- Witness for C3 at the concrete symbol `⟨'x', 7⟩`. -/
theorem darken_saturates_witness :
    (Symbol.darken ⟨'x', 7⟩).char = 'x' ∧
    ((Symbol.darken ⟨'x', 7⟩).brightness : Int) = max 0 ((7 : Int) - 10) ∧
    ((7 : Nat) = 0 → (Symbol.darken ⟨'x', 7⟩).brightness = 0) :=
  darken_saturates ⟨'x', 7⟩ (by decide)

-- ### C5

/-- Helper: with positive dimensions, `Droplet::new_random` succeeds and
returns a droplet with `-(H-1) ≤ row ≤ 0` and `col < W`. -/
theorem new_random_ok (rng : Rng) (W H : Nat) (hW : 0 < W) (hH : 0 < H) :
    ∃ d rng2, Droplet.new_random rng W H = some (d, rng2) ∧
      -((H : Int) - 1) ≤ d.row ∧ d.row ≤ 0 ∧ d.col < W := by
  have hH0 : H ≠ 0 := Nat.pos_iff_ne_zero.mp hH
  have hW0 : W ≠ 0 := Nat.pos_iff_ne_zero.mp hW
  refine ⟨⟨-((rng.stream rng.idx % H : Nat) : Int),
      rng.stream (rng.idx + 1) % W⟩, ⟨rng.stream, rng.idx + 2⟩, ?_, ?_, ?_, ?_⟩
  · simp [Droplet.new_random, genRange, Rng.next, hH0, hW0]
  · have : rng.stream rng.idx % H < H := Nat.mod_lt _ hH
    simp only [neg_le_neg_iff]
    omega
  · exact neg_nonpos.mpr (Int.natCast_nonneg _)
  · exact Nat.mod_lt _ hW

/-- C5: with positive dimensions, `Droplet::new_random` succeeds and
returns a droplet with `-(H-1) ≤ row ≤ 0` and `col < W`. -/
theorem new_random_range (rng : Rng) (W H : Nat) (hW : 0 < W) (hH : 0 < H) :
    ∃ d rng2, Droplet.new_random rng W H = some (d, rng2) ∧
      -((H : Int) - 1) ≤ d.row ∧ d.row ≤ 0 ∧ d.col < W :=
  new_random_ok rng W H hW hH

/-- Witness for C5 at `W = 2`, `H = 3` and the fixed stream. -/
theorem new_random_range_witness :
    ∃ d rng2, Droplet.new_random rng0 2 3 = some (d, rng2) ∧
      -((3 : Int) - 1) ≤ d.row ∧ d.row ≤ 0 ∧ d.col < 2 :=
  new_random_range rng0 2 3 (by decide) (by decide)

-- ### C1

/-- C1 counterexample: with `W = 1`, `H = 3`, updating the droplet
`⟨0, 5⟩` wraps nothing and leaves `col = 5`, which is not `< W`; so over
arbitrary droplet states the claimed consequence "after any call to
update, col < W" fails (it needs the incoming `col` to be in range). -/
theorem update_col_escape :
    ∃ d2 rng2, Droplet.update ⟨0, 5⟩ rng0 1 3 = some (d2, rng2) ∧
      ¬ d2.col < 1 :=
  ⟨⟨1, 5⟩, rng0, rfl, by decide⟩

/-- Helper: full case description of `Droplet::update` with positive
dimensions. -/
theorem update_ok (d : Droplet) (rng : Rng) (W H : Nat)
    (hW : 0 < W) (hH : 0 < H) :
    ∃ d2 rng2, d.update rng W H = some (d2, rng2) ∧
      (((H : Int) ≤ d.row + 1) → d2.row = 0 ∧ d2.col < W) ∧
      ((d.row + 1 < (H : Int)) → d2.row = d.row + 1 ∧ d2.col = d.col) ∧
      d2.row < (H : Int) ∧ (d.col < W → d2.col < W) := by
  by_cases hwrap : (H : Int) ≤ d.row + 1
  · refine ⟨⟨0, rng.stream rng.idx % W⟩, ⟨rng.stream, rng.idx + 1⟩,
      ?_, ?_, ?_, ?_, ?_⟩
    · simp [Droplet.update, hwrap, genRange, Rng.next, Nat.pos_iff_ne_zero.mp hW]
    · exact fun _ => ⟨rfl, Nat.mod_lt _ hW⟩
    · intro hlt; omega
    · show (0 : Int) < (H : Int)
      exact_mod_cast hH
    · exact fun _ => Nat.mod_lt _ hW
  · refine ⟨⟨d.row + 1, d.col⟩, rng, ?_, ?_, ?_, ?_, ?_⟩
    · simp [Droplet.update, hwrap]
    · exact fun h => absurd h hwrap
    · exact fun _ => ⟨rfl, rfl⟩
    · show d.row + 1 < (H : Int)
      omega
    · exact fun h => h

/-- C1 (amended): with `W, H > 0`, `Droplet::update` increments the row;
exactly when the incremented row reaches `H` it resets the row to `0`
and redraws `col` from `[0, W)`, otherwise row and column are the
incremented row and the old column. Afterwards `row < H` always holds,
and `col < W` holds provided the incoming `col` was `< W` (as it is for
every droplet the program creates). -/
theorem update_spec (d : Droplet) (rng : Rng) (W H : Nat)
    (hW : 0 < W) (hH : 0 < H) :
    ∃ d2 rng2, d.update rng W H = some (d2, rng2) ∧
      (((H : Int) ≤ d.row + 1) → d2.row = 0 ∧ d2.col < W) ∧
      ((d.row + 1 < (H : Int)) → d2.row = d.row + 1 ∧ d2.col = d.col) ∧
      d2.row < (H : Int) ∧ (d.col < W → d2.col < W) :=
  update_ok d rng W H hW hH

/-- Witness for C1's amended theorem at the droplet `⟨1, 0⟩`, `W = 2`,
`H = 2` and the fixed stream. -/
theorem update_spec_witness :
    ∃ d2 rng2, Droplet.update ⟨1, 0⟩ rng0 2 2 = some (d2, rng2) ∧
      (((2 : Nat) : Int) ≤ (1 : Int) + 1 → d2.row = 0 ∧ d2.col < 2) ∧
      ((1 : Int) + 1 < ((2 : Nat) : Int) → d2.row = (1 : Int) + 1 ∧ d2.col = 0) ∧
      d2.row < ((2 : Nat) : Int) ∧ ((0 : Nat) < 2 → d2.col < 2) :=
  update_spec ⟨1, 0⟩ rng0 2 2 (by decide) (by decide)

-- ### C10

/-- C10: at the zero boundaries `Screen::new` is asymmetric: a zero
height with positive width panics inside `Droplet::new_random` (empty
`gen_range` range), while a zero width returns normally with no columns
and no droplets. -/
theorem new_zero_dims (W H : Nat) (rng : Rng) (hW : 0 < W) :
    Screen.new rng W 0 = none ∧
    Screen.new rng 0 H = some (⟨0, H, [], []⟩, rng) := by
  constructor
  · obtain ⟨n, rfl⟩ := Nat.exists_eq_succ_of_ne_zero (Nat.pos_iff_ne_zero.mp hW)
    simp [Screen.new, newDroplets, Droplet.new_random, genRange]
  · simp [Screen.new, newDroplets]

/-- Witness for C10 at `W = 1`, `H = 1` and the fixed stream. -/
theorem new_zero_dims_witness :
    Screen.new rng0 1 0 = none ∧
    Screen.new rng0 0 1 = some (⟨0, 1, [], []⟩, rng0) :=
  new_zero_dims 1 1 rng0 (by decide)

-- ### C4

/-- Integer form of the three rounded color channels: for `x ≥ 0`
written as a fraction `n / d`, `⌊n / d + 1/2⌋ = (2n + d) / (2d)`. -/
def colorN (b : Nat) : Nat × Nat × Nat :=
  ((2 * b ^ 7 + 255 ^ 6) / (2 * 255 ^ 6),
    (2 * b + 1) / 2,
    (2 * b ^ 4 + 255 ^ 3) / (2 * 255 ^ 3))

/-- Bridge from the rational color computation to `colorN`'s integer
arithmetic. -/
theorem color_eq_colorN (b : Nat) :
    color b = (((colorN b).1 : Int), ((colorN b).2.1 : Int), ((colorN b).2.2 : Int)) := by
  have h7 : ((b : ℚ) / 255) ^ 7 * 255 + 1 / 2
      = ((2 * b ^ 7 + 255 ^ 6 : Nat) : ℚ) / ((2 * 255 ^ 6 : Nat) : ℚ) := by
    push_cast
    field_simp
    ring
  have h1 : ((b : ℚ) / 255) ^ 1 * 255 + 1 / 2
      = ((2 * b + 1 : Nat) : ℚ) / ((2 : Nat) : ℚ) := by
    push_cast
    field_simp
    ring
  have h4 : ((b : ℚ) / 255) ^ 4 * 255 + 1 / 2
      = ((2 * b ^ 4 + 255 ^ 3 : Nat) : ℚ) / ((2 * 255 ^ 3 : Nat) : ℚ) := by
    push_cast
    field_simp
    ring
  show (⌊((b : ℚ) / 255) ^ 7 * 255 + 1 / 2⌋, ⌊((b : ℚ) / 255) ^ 1 * 255 + 1 / 2⌋,
      ⌊((b : ℚ) / 255) ^ 4 * 255 + 1 / 2⌋) = _
  rw [h7, h1, h4, Rat.floor_natCast_div_natCast, Rat.floor_natCast_div_natCast,
    Rat.floor_natCast_div_natCast]
  simp only [colorN]
  norm_cast

/-- C4: `color` maps brightness `0` to black and `255` to white, and for
every brightness in `[1, 254]` the red channel is strictly below the
green channel and the blue channel is strictly below the green
channel. -/
theorem color_channel_order :
    color 0 = (0, 0, 0) ∧ color 255 = (255, 255, 255) ∧
    ∀ b : Nat, 1 ≤ b → b ≤ 254 →
      (color b).1 < (color b).2.1 ∧ (color b).2.2 < (color b).2.1 := by
  have key : ∀ b : Nat, b < 255 → 1 ≤ b →
      (colorN b).1 < (colorN b).2.1 ∧ (colorN b).2.2 < (colorN b).2.1 := by
    set_option maxRecDepth 4000 in decide
  refine ⟨?_, ?_, ?_⟩
  · rw [color_eq_colorN]
    decide
  · rw [color_eq_colorN]
    decide
  · intro b h1 h254
    have hb : b < 255 := by omega
    obtain ⟨hr, hbl⟩ := key b hb h1
    rw [color_eq_colorN]
    refine ⟨?_, ?_⟩
    · show ((colorN b).1 : Int) < ((colorN b).2.1 : Int)
      exact_mod_cast hr
    · show ((colorN b).2.2 : Int) < ((colorN b).2.1 : Int)
      exact_mod_cast hbl

/-- Witness for C4's bounded quantifier at brightness `100`. -/
theorem color_channel_order_witness :
    (color 100).1 < (color 100).2.1 ∧ (color 100).2.2 < (color 100).2.1 :=
  color_channel_order.2.2 100 (by decide) (by decide)

-- ### C9

/-- Apply `Symbol::darken` to the symbol at one index; folding this over
an enumeration of all indices expresses "darken each symbol
independently, in some order". -/
def darkenIdx (l : List Symbol) (i : Nat) : List Symbol :=
  l.modify Symbol.darken i

/-- Pointwise description of folding `darkenIdx` over a duplicate-free
index list: a position is darkened exactly when its index occurs in the
list. -/
theorem foldl_darkenIdx_getElem? :
    ∀ (is : List Nat), is.Nodup →
      ∀ (l : List Symbol) (j : Nat),
        (List.foldl darkenIdx l is)[j]? =
          if j ∈ is then Symbol.darken <$> l[j]? else l[j]?
  | [], _, l, j => by simp
  | i :: is, hnd, l, j => by
    have hi : i ∉ is := (List.nodup_cons.mp hnd).1
    have hnd2 : is.Nodup := (List.nodup_cons.mp hnd).2
    rw [List.foldl_cons, foldl_darkenIdx_getElem? is hnd2 (darkenIdx l i) j]
    by_cases hji : j = i
    · subst hji
      simp [hi, darkenIdx, List.getElem?_modify_eq]
    · have hne : (darkenIdx l i)[j]? = l[j]? :=
        List.getElem?_modify_ne _ l (Ne.symm hji)
      simp [hne, hji, List.mem_cons]

/-- C9: `Column::darken` equals darkening each contained symbol
independently, with the positions processed in an arbitrary order (any
permutation of all indices). -/
theorem column_darken_order_indep (c : Column) (is : List Nat)
    (h : List.Perm is (List.range c.symbols.length)) :
    Column.darken c = ⟨List.foldl darkenIdx c.symbols is⟩ := by
  have hnd : is.Nodup := h.nodup_iff.mpr (List.nodup_range _)
  show Column.mk (c.symbols.map Symbol.darken) = ⟨List.foldl darkenIdx c.symbols is⟩
  apply congrArg Column.mk
  apply List.ext_getElem?
  intro j
  rw [foldl_darkenIdx_getElem? is hnd c.symbols j]
  by_cases hj : j ∈ is
  · simp [hj]
  · have hjn : ¬ j < c.symbols.length := by
      intro hlt
      exact hj (h.mem_iff.mpr (List.mem_range.mpr hlt))
    have hnone : c.symbols[j]? = none := List.getElem?_eq_none (by omega)
    simp [hj, hnone]

/-- Witness for C9 on a two-symbol column with the indices processed in
reverse order. -/
theorem column_darken_order_indep_witness :
    Column.darken ⟨[⟨'a', 30⟩, ⟨'b', 5⟩]⟩ =
      ⟨List.foldl darkenIdx [⟨'a', 30⟩, ⟨'b', 5⟩] [1, 0]⟩ :=
  column_darken_order_indep ⟨[⟨'a', 30⟩, ⟨'b', 5⟩]⟩ [1, 0] (by decide)

-- ### C8

/-- C8: printing a screen of height 2 whose two columns hold only
default symbols (char `' '`, brightness 0) writes exactly two lines,
each two spaces followed by the `"\r\n"` line break, and nothing else:
the visible text of the whole event stream is `"  \r\n  \r\n"`. -/
theorem print_blank_two_by_two (s : Screen) (hh : s.height = 2)
    (hlen : s.columns.length = 2)
    (hcols : ∀ c ∈ s.columns, c.symbols.length = 2 ∧
      ∀ sym ∈ c.symbols, sym = Symbol.default) :
    ∃ es, s.print = some es ∧ textOf es = "  \r\n  \r\n" := by
  obtain ⟨c1, c2, hc⟩ := List.length_eq_two.mp hlen
  have hmem1 : c1 ∈ s.columns := by rw [hc]; exact List.mem_cons_self _ _
  have hmem2 : c2 ∈ s.columns := by rw [hc]; simp
  obtain ⟨hl1, hd1⟩ := hcols c1 hmem1
  obtain ⟨hl2, hd2⟩ := hcols c2 hmem2
  obtain ⟨x1, y1, hxy1⟩ := List.length_eq_two.mp hl1
  obtain ⟨x2, y2, hxy2⟩ := List.length_eq_two.mp hl2
  have hx1 : x1 = Symbol.default := hd1 x1 (by rw [hxy1]; simp)
  have hy1 : y1 = Symbol.default := hd1 y1 (by rw [hxy1]; simp)
  have hx2 : x2 = Symbol.default := hd2 x2 (by rw [hxy2]; simp)
  have hy2 : y2 = Symbol.default := hd2 y2 (by rw [hxy2]; simp)
  subst hx1 hy1 hx2 hy2
  have hc1 : c1 = ⟨[Symbol.default, Symbol.default]⟩ := by
    obtain ⟨syms1⟩ := c1
    simpa using hxy1
  have hc2 : c2 = ⟨[Symbol.default, Symbol.default]⟩ := by
    obtain ⟨syms2⟩ := c2
    simpa using hxy2
  subst hc1 hc2
  refine ⟨[OutEvent.setFg (color 0), OutEvent.char ' ',
      OutEvent.setFg (color 0), OutEvent.char ' ', OutEvent.crlf,
      OutEvent.setFg (color 0), OutEvent.char ' ',
      OutEvent.setFg (color 0), OutEvent.char ' ', OutEvent.crlf], ?_, ?_⟩
  · simp only [Screen.print, hh, hc]
    rfl
  · rfl

/-- Witness for C8 at a concrete blank 2-by-2 screen. -/
theorem print_blank_two_by_two_witness :
    ∃ es, Screen.print ⟨2, 2, [Column.new 2, Column.new 2], []⟩ = some es ∧
      textOf es = "  \r\n  \r\n" :=
  print_blank_two_by_two ⟨2, 2, [Column.new 2, Column.new 2], []⟩
    rfl rfl (by decide)

-- ### Helpers for C2, C6 and C7

/-- Symbol stored at column `i`, row `j` of a column list. -/
def symAt (cols : List Column) (i j : Nat) : Option Symbol :=
  match cols[i]? with
  | some c => c.symbols[j]?
  | none => none

/-- Screen positions `(col, row)` that the droplets hit after advancing
once with no wrap: the positions of droplets whose incremented row is
non-negative. -/
def hitsOf (ds : List Droplet) : List (Nat × Nat) :=
  ds.filterMap (fun d => (d.row + 1).toNat'.map (fun r => (d.col, r)))

/-- The letter drawn by `genUpper` is always an uppercase letter. -/
theorem genUpper_range (rng : Rng) :
    'A' ≤ (genUpper rng).1 ∧ (genUpper rng).1 ≤ 'Z' := by
  have key : ∀ k : Nat, k < 26 →
      'A' ≤ Char.ofNat ('A'.toNat + k) ∧ Char.ofNat ('A'.toNat + k) ≤ 'Z' := by
    decide
  exact key _ (Nat.mod_lt _ (by decide))

/-- A successful `Column::set` preserves the number of symbols. -/
theorem column_set_length {c : Column} {row : Nat} {ch : Char} {c1 : Column}
    (h : Column.set c row ch = some c1) :
    c1.symbols.length = c.symbols.length := by
  rw [Column.set] at h
  split at h
  · cases h
    simp
  · simp at h

/-- Whenever `updateDropletsAux` succeeds it preserves the number of
columns, the per-column symbol count, and the number of droplets. -/
theorem updateDropletsAux_pres (W H : Nat) :
    ∀ (ds : List Droplet) (cols cols2 : List Column) (ds2 : List Droplet)
      (rng rng2 : Rng),
      updateDropletsAux W H ds cols rng = some (cols2, ds2, rng2) →
      (∀ c ∈ cols, c.symbols.length = H) →
      cols2.length = cols.length ∧ ds2.length = ds.length ∧
        ∀ c ∈ cols2, c.symbols.length = H
  | [], cols, cols2, ds2, rng, rng2, heq, hcols => by
    rw [updateDropletsAux] at heq
    obtain ⟨rfl, rfl, rfl⟩ : cols = cols2 ∧ [] = ds2 ∧ rng = rng2 := by
      simpa using heq
    exact ⟨rfl, rfl, hcols⟩
  | d :: ds, cols, cols2, ds2, rng, rng2, heq, hcols => by
    rw [updateDropletsAux] at heq
    cases hupd : d.update rng W H with
    | none => rw [hupd] at heq; simp at heq
    | some p =>
      obtain ⟨d1, rng1⟩ := p
      rw [hupd] at heq
      dsimp only at heq
      cases hnn : d1.row.toNat' with
      | some r =>
        rw [hnn] at heq
        dsimp only at heq
        by_cases hlt : d1.col < cols.length
        · rw [dif_pos hlt] at heq
          cases hset : (cols.get ⟨d1.col, hlt⟩).set r (genUpper rng1).1 with
          | none => rw [hset] at heq; simp at heq
          | some c1 =>
            rw [hset] at heq
            dsimp only at heq
            cases hrec : updateDropletsAux W H ds (cols.set d1.col c1)
                (genUpper rng1).2 with
            | none => rw [hrec] at heq; simp at heq
            | some q =>
              obtain ⟨cols3, ds3, rng3⟩ := q
              rw [hrec] at heq
              dsimp only at heq
              obtain ⟨rfl, rfl, rfl⟩ :
                  cols3 = cols2 ∧ d1 :: ds3 = ds2 ∧ rng3 = rng2 := by
                simpa using heq
              have hcols1 : ∀ c ∈ cols.set d1.col c1, c.symbols.length = H := by
                intro c hc
                rcases List.mem_or_eq_of_mem_set hc with h | rfl
                · exact hcols c h
                · rw [column_set_length hset]
                  exact hcols _ (List.get_mem _ _ _)
              obtain ⟨h1, h2, h3⟩ := updateDropletsAux_pres W H ds
                (cols.set d1.col c1) cols3 ds3 _ _ hrec hcols1
              exact ⟨by simpa using h1, by simp [h2], h3⟩
        · rw [dif_neg hlt] at heq
          simp at heq
      | none =>
        rw [hnn] at heq
        dsimp only at heq
        cases hrec : updateDropletsAux W H ds cols rng1 with
        | none => rw [hrec] at heq; simp at heq
        | some q =>
          obtain ⟨cols3, ds3, rng3⟩ := q
          rw [hrec] at heq
          dsimp only at heq
          obtain ⟨rfl, rfl, rfl⟩ :
              cols3 = cols2 ∧ d1 :: ds3 = ds2 ∧ rng3 = rng2 := by
            simpa using heq
          obtain ⟨h1, h2, h3⟩ := updateDropletsAux_pres W H ds cols cols3 ds3 _ _
            hrec hcols
          exact ⟨h1, by simp [h2], h3⟩

/-- With positive dimensions, drawing `n` fresh droplets succeeds and
every drawn droplet has a valid column and a non-positive row. -/
theorem newDroplets_spec (W H : Nat) (hW : 0 < W) (hH : 0 < H) :
    ∀ (n : Nat) (rng : Rng),
      ∃ ds rng2, newDroplets W H n rng = some (ds, rng2) ∧ ds.length = n ∧
        ∀ d ∈ ds, d.col < W ∧ d.row ≤ 0
  | 0, rng => ⟨[], rng, rfl, rfl, by simp⟩
  | n + 1, rng => by
    obtain ⟨d, rng1, hd, _, hrow, hcol⟩ := new_random_ok rng W H hW hH
    obtain ⟨ds, rng2, hds, hlen, hall⟩ := newDroplets_spec W H hW hH n rng1
    refine ⟨d :: ds, rng2, by simp [newDroplets, hd, hds], by simp [hlen], ?_⟩
    intro d2 hd2
    rcases List.mem_cons.mp hd2 with rfl | h
    · exact ⟨hcol, hrow⟩
    · exact hall d2 h

-- ### C6

/-- Well-formedness of a screen: the three length equalities of the
spec (`columns.len() == width`, every `column.symbols.len() == height`,
`droplets.len() == width`). -/
def Screen.WF (s : Screen) : Prop :=
  s.columns.length = s.width ∧
    (∀ c ∈ s.columns, c.symbols.length = s.height) ∧
    s.droplets.length = s.width

/-- C6: with positive dimensions, `Screen::new` establishes the three
length equalities (with `width = W`, `height = H`), and every screen
operation preserves them: `print` does not change the state at all,
`darken` preserves them, and any successful `update_droplets` preserves
them (width and height fields are also unchanged). -/
theorem screen_wf_invariant (W H : Nat) (rng : Rng) (hW : 0 < W) (hH : 0 < H) :
    (∃ s0 rng1, Screen.new rng W H = some (s0, rng1) ∧
      s0.width = W ∧ s0.height = H ∧ s0.WF) ∧
    (∀ (s : Screen) (r : Rng), s.step r Op.print = some (s, r)) ∧
    (∀ s : Screen, s.WF → (Screen.darken s).WF ∧
      (Screen.darken s).width = s.width ∧ (Screen.darken s).height = s.height) ∧
    (∀ (s s2 : Screen) (r r2 : Rng), s.WF → s.update_droplets r = some (s2, r2) →
      s2.WF ∧ s2.width = s.width ∧ s2.height = s.height) := by
  refine ⟨?_, ?_, ?_, ?_⟩
  · obtain ⟨ds, rng2, hds, hlen, _⟩ := newDroplets_spec W H hW hH W rng
    refine ⟨⟨W, H, List.replicate W (Column.new H), ds⟩, rng2,
      by simp [Screen.new, hds], rfl, rfl, ?_, ?_, ?_⟩
    · simp
    · intro c hc
      rw [List.eq_of_mem_replicate hc]
      simp [Column.new]
    · simpa using hlen
  · intro s r
    rfl
  · intro s ⟨h1, h2, h3⟩
    refine ⟨⟨?_, ?_, ?_⟩, rfl, rfl⟩
    · show (s.columns.map Column.darken).length = s.width
      simpa using h1
    · intro c hc
      have hc2 : c ∈ s.columns.map Column.darken := hc
      obtain ⟨c0, hc0, rfl⟩ := List.mem_map.mp hc2
      show (Column.darken c0).symbols.length = s.height
      simpa [Column.darken] using h2 c0 hc0
    · show s.droplets.length = s.width
      exact h3
  · intro s s2 r r2 ⟨h1, h2, h3⟩ hupd
    rw [Screen.update_droplets] at hupd
    cases haux : updateDropletsAux s.width s.height s.droplets s.columns r with
    | none => rw [haux] at hupd; simp at hupd
    | some q =>
      obtain ⟨cols1, ds1, rng1⟩ := q
      rw [haux] at hupd
      obtain ⟨rfl, rfl⟩ :
          ({ s with columns := cols1, droplets := ds1 } : Screen) = s2 ∧
            rng1 = r2 := by
        simpa using hupd
      obtain ⟨hl1, hl2, hl3⟩ := updateDropletsAux_pres s.width s.height
        s.droplets s.columns cols1 ds1 r rng1 haux h2
      exact ⟨⟨by simpa [h1] using hl1, hl3, by simpa [h3] using hl2⟩, rfl, rfl⟩

/-- Witness for C6 at `W = 1`, `H = 1` and the fixed stream. -/
theorem screen_wf_invariant_witness :
    (∃ s0 rng1, Screen.new rng0 1 1 = some (s0, rng1) ∧
      s0.width = 1 ∧ s0.height = 1 ∧ s0.WF) ∧
    (∀ (s : Screen) (r : Rng), s.step r Op.print = some (s, r)) ∧
    (∀ s : Screen, s.WF → (Screen.darken s).WF ∧
      (Screen.darken s).width = s.width ∧ (Screen.darken s).height = s.height) ∧
    (∀ (s s2 : Screen) (r r2 : Rng), s.WF → s.update_droplets r = some (s2, r2) →
      s2.WF ∧ s2.width = s.width ∧ s2.height = s.height) :=
  screen_wf_invariant 1 1 rng0 (by decide) (by decide)

-- ### C7

/-- A `Column::set` at an in-bounds row succeeds, keeps the length, and
writes exactly the full-brightness symbol at that row. -/
theorem column_set_some {c : Column} {row : Nat} (ch : Char)
    (h : row < c.symbols.length) :
    ∃ c1, Column.set c row ch = some c1 ∧
      c1.symbols.length = c.symbols.length ∧
      c1.symbols[row]? = some ⟨ch, 255⟩ ∧
      ∀ j, j ≠ row → c1.symbols[j]? = c.symbols[j]? := by
  refine ⟨⟨c.symbols.set row ((c.symbols.get ⟨row, h⟩).set ch)⟩, ?_, ?_, ?_, ?_⟩
  · rw [Column.set, dif_pos h]
  · simp
  · show (c.symbols.set row _)[row]? = _
    rw [List.getElem?_set_self h]
    rfl
  · intro j hj
    exact List.getElem?_set_ne (Ne.symm hj)

/-- Under the reachability invariant (valid column indices, positive
height, well-formed columns), the droplet-update loop never faults, and
it re-establishes the invariant. -/
theorem updateDropletsAux_total (W H : Nat) (hH : 0 < H) :
    ∀ (ds : List Droplet) (cols : List Column) (rng : Rng),
      cols.length = W →
      (∀ c ∈ cols, c.symbols.length = H) →
      (∀ d ∈ ds, d.col < W) →
      ∃ cols2 ds2 rng2,
        updateDropletsAux W H ds cols rng = some (cols2, ds2, rng2) ∧
        cols2.length = W ∧ (∀ c ∈ cols2, c.symbols.length = H) ∧
        (∀ d2 ∈ ds2, d2.col < W)
  | [], cols, rng, hlen, hcols, _ =>
    ⟨cols, [], rng, by rw [updateDropletsAux], hlen, hcols, by simp⟩
  | d :: ds, cols, rng, hlen, hcols, hds => by
    have hcol : d.col < W := hds d (List.mem_cons_self _ _)
    have hW : 0 < W := lt_of_le_of_lt (Nat.zero_le _) hcol
    obtain ⟨d1, rng1, hupd, _, _, hrowlt, hcolpres⟩ := update_ok d rng W H hW hH
    have hd1col : d1.col < W := hcolpres hcol
    have hds2 : ∀ d2 ∈ ds, d2.col < W := fun d2 h2 =>
      hds d2 (List.mem_cons_of_mem _ h2)
    rw [updateDropletsAux, hupd]
    dsimp only
    cases hnn : d1.row.toNat' with
    | some r =>
      dsimp only
      have hrd : d1.row = (r : Int) := Int.mem_toNat'.mp hnn
      have hrlt : r < H := by
        rw [hrd] at hrowlt
        exact_mod_cast hrowlt
      have hlt : d1.col < cols.length := by rw [hlen]; exact hd1col
      rw [dif_pos hlt]
      have hslen : (cols.get ⟨d1.col, hlt⟩).symbols.length = H :=
        hcols _ (List.get_mem _ _ _)
      obtain ⟨c1, hset, hc1len, _, _⟩ :=
        column_set_some (c := cols.get ⟨d1.col, hlt⟩) (genUpper rng1).1
          (by rw [hslen]; exact hrlt)
      rw [hset]
      dsimp only
      have hcols1 : ∀ c ∈ cols.set d1.col c1, c.symbols.length = H := by
        intro c hc
        rcases List.mem_or_eq_of_mem_set hc with h | rfl
        · exact hcols c h
        · rw [hc1len, hslen]
      obtain ⟨cols2, ds2, rng2, hrec, ha, hb, hc⟩ :=
        updateDropletsAux_total W H hH ds (cols.set d1.col c1) (genUpper rng1).2
          (by simp [hlen]) hcols1 hds2
      rw [hrec]
      dsimp only
      refine ⟨cols2, d1 :: ds2, rng2, rfl, ha, hb, ?_⟩
      intro d2 h2
      rcases List.mem_cons.mp h2 with rfl | h
      · exact hd1col
      · exact hc d2 h
    | none =>
      dsimp only
      obtain ⟨cols2, ds2, rng2, hrec, ha, hb, hc⟩ :=
        updateDropletsAux_total W H hH ds cols rng1 hlen hcols hds2
      rw [hrec]
      dsimp only
      refine ⟨cols2, d1 :: ds2, rng2, rfl, ha, hb, ?_⟩
      intro d2 h2
      rcases List.mem_cons.mp h2 with rfl | h
      · exact hd1col
      · exact hc d2 h

/-- Inductive invariant for reachability: well-formed columns, a
positive height, and every droplet indexing a valid column. -/
def Inv (s : Screen) : Prop :=
  s.columns.length = s.width ∧
    (∀ c ∈ s.columns, c.symbols.length = s.height) ∧
    0 < s.height ∧
    (∀ d ∈ s.droplets, d.col < s.width)

/-- Every single screen operation succeeds from an invariant state and
re-establishes the invariant. -/
theorem step_total (s : Screen) (rng : Rng) (op : Op) (hInv : Inv s) :
    ∃ s2 rng2, s.step rng op = some (s2, rng2) ∧ Inv s2 := by
  obtain ⟨h1, h2, h3, h4⟩ := hInv
  cases op with
  | print => exact ⟨s, rng, rfl, h1, h2, h3, h4⟩
  | darken =>
    refine ⟨s.darken, rng, rfl, ?_, ?_, h3, h4⟩
    · show (s.columns.map Column.darken).length = s.width
      simpa using h1
    · intro c hc
      have hc2 : c ∈ s.columns.map Column.darken := hc
      obtain ⟨c0, hc0, rfl⟩ := List.mem_map.mp hc2
      show (Column.darken c0).symbols.length = s.height
      simpa [Column.darken] using h2 c0 hc0
  | update =>
    obtain ⟨cols2, ds2, rng2, haux, ha, hb, hc⟩ :=
      updateDropletsAux_total s.width s.height h3 s.droplets s.columns rng h1 h2 h4
    refine ⟨{ s with columns := cols2, droplets := ds2 }, rng2, ?_, ha, hb, h3, hc⟩
    show s.update_droplets rng = _
    rw [Screen.update_droplets, haux]
    rfl

/-- Any operation sequence runs fault-free from an invariant state. -/
theorem run_total (ops : List Op) :
    ∀ (s : Screen) (rng : Rng), Inv s →
      ∃ out, Screen.run s rng ops = some out ∧ Inv out.1 := by
  induction ops with
  | nil => exact fun s rng h => ⟨(s, rng), rfl, h⟩
  | cons op ops ih =>
    intro s rng h
    obtain ⟨s2, rng2, hstep, hinv2⟩ := step_total s rng op h
    obtain ⟨out, hrun, hinv3⟩ := ih s2 rng2 hinv2
    refine ⟨out, ?_, hinv3⟩
    rw [Screen.run, hstep]
    dsimp only
    exact hrun

/-- C7: a screen constructed by `Screen::new` with positive dimensions
runs any sequence of print/darken/update operations without ever
reaching the index-out-of-bounds fault of `Column::set` (every fault is
modelled as `none`, and the whole run returns `some`). -/
theorem screen_run_no_fault (W H : Nat) (rng : Rng) (ops : List Op)
    (hW : 0 < W) (hH : 0 < H) :
    ∃ s0 rng0, Screen.new rng W H = some (s0, rng0) ∧
      ∃ out, Screen.run s0 rng0 ops = some out := by
  obtain ⟨ds, rng2, hds, hlen, hall⟩ := newDroplets_spec W H hW hH W rng
  refine ⟨⟨W, H, List.replicate W (Column.new H), ds⟩, rng2,
    by simp [Screen.new, hds], ?_⟩
  have hinv : Inv ⟨W, H, List.replicate W (Column.new H), ds⟩ := by
    refine ⟨by simp, ?_, hH, fun d hd => (hall d hd).1⟩
    intro c hc
    rw [List.eq_of_mem_replicate hc]
    simp [Column.new]
  obtain ⟨out, hrun, _⟩ := run_total ops _ rng2 hinv
  exact ⟨out, hrun⟩

/-- Witness for C7 at `W = 1`, `H = 1`, the fixed stream and a short
operation sequence containing every kind of operation. -/
theorem screen_run_no_fault_witness :
    ∃ s0 rng1, Screen.new rng0 1 1 = some (s0, rng1) ∧
      ∃ out, Screen.run s0 rng1 [Op.update, Op.darken, Op.print, Op.update]
        = some out :=
  screen_run_no_fault 1 1 rng0 [Op.update, Op.darken, Op.print, Op.update]
    (by decide) (by decide)

-- ### C2

/-- Membership in `hitsOf`: a position is hit exactly when some droplet
lands there after its row is incremented (non-negative new row). -/
theorem mem_hitsOf {ds : List Droplet} {i j : Nat} :
    (i, j) ∈ hitsOf ds ↔ ∃ d ∈ ds, i = d.col ∧ (j : Int) = d.row + 1 := by
  simp only [hitsOf, List.mem_filterMap, Option.map_eq_some']
  constructor
  · rintro ⟨d, hd, r, hr, heq⟩
    obtain ⟨h1, h2⟩ := Prod.mk.injEq .. ▸ heq
    refine ⟨d, hd, h1.symm, ?_⟩
    rw [← h2]
    exact (Int.mem_toNat'.mp hr).symm
  · rintro ⟨d, hd, rfl, hj⟩
    exact ⟨d, hd, j, Int.mem_toNat'.mpr hj.symm, rfl⟩

/-- Behavior of the droplet loop when no droplet wraps (every
incremented row is still `< H`) over well-formed columns: every droplet
just moves down one row keeping its column, the hit positions hold a
freshly set full-brightness uppercase letter, and all other positions
are untouched. -/
theorem updateDropletsAux_nowrap (W H : Nat) :
    ∀ (ds : List Droplet) (cols : List Column) (rng : Rng),
      (∀ c ∈ cols, c.symbols.length = H) →
      (∀ d ∈ ds, d.col < cols.length ∧ d.row + 1 < (H : Int)) →
      ∃ cols2 rng2,
        updateDropletsAux W H ds cols rng
          = some (cols2, ds.map (fun d => ⟨d.row + 1, d.col⟩), rng2) ∧
        (∀ i j, (i, j) ∈ hitsOf ds →
          ∃ sym, symAt cols2 i j = some sym ∧ sym.brightness = 255 ∧
            'A' ≤ sym.char ∧ sym.char ≤ 'Z') ∧
        (∀ i j, (i, j) ∉ hitsOf ds → symAt cols2 i j = symAt cols i j)
  | [], cols, rng, hcols, _ => by
    refine ⟨cols, rng, by rw [updateDropletsAux]; rfl, ?_, ?_⟩
    · intro i j hij
      simp [hitsOf] at hij
    · intro i j _
      rfl
  | d :: ds, cols, rng, hcols, hds => by
    obtain ⟨hdc, hdr⟩ := hds d (List.mem_cons_self _ _)
    have hds2 : ∀ d2 ∈ ds, d2.col < cols.length ∧ d2.row + 1 < (H : Int) :=
      fun d2 h2 => hds d2 (List.mem_cons_of_mem _ h2)
    have hupd : d.update rng W H = some (⟨d.row + 1, d.col⟩, rng) := by
      simp only [Droplet.update]
      rw [if_neg (not_le.mpr hdr)]
      rfl
    rw [updateDropletsAux, hupd]
    dsimp only
    cases hnn : (d.row + 1).toNat' with
    | some r =>
      dsimp only
      have hrd : d.row + 1 = (r : Int) := Int.mem_toNat'.mp hnn
      have hrlt : r < H := by
        rw [hrd] at hdr
        exact_mod_cast hdr
      rw [dif_pos hdc]
      have hslen : (cols.get ⟨d.col, hdc⟩).symbols.length = H :=
        hcols _ (List.get_mem _ _ _)
      obtain ⟨c1, hset, hc1len, hc1at, hc1other⟩ :=
        column_set_some (c := cols.get ⟨d.col, hdc⟩) (genUpper rng).1
          (by rw [hslen]; exact hrlt)
      rw [hset]
      dsimp only
      have hcols1 : ∀ c ∈ cols.set d.col c1, c.symbols.length = H := by
        intro c hc
        rcases List.mem_or_eq_of_mem_set hc with h | rfl
        · exact hcols c h
        · rw [hc1len, hslen]
      have hds3 : ∀ d2 ∈ ds, d2.col < (cols.set d.col c1).length ∧
          d2.row + 1 < (H : Int) := by
        intro d2 h2
        refine ⟨?_, (hds2 d2 h2).2⟩
        rw [List.length_set]
        exact (hds2 d2 h2).1
      obtain ⟨cols2, rng2, hrec, hhits, hunch⟩ :=
        updateDropletsAux_nowrap W H ds (cols.set d.col c1) (genUpper rng).2
          hcols1 hds3
      rw [hrec]
      dsimp only
      have hhits_cons : hitsOf (d :: ds) = (d.col, r) :: hitsOf ds := by
        simp [hitsOf, List.filterMap_cons, hnn]
      refine ⟨cols2, rng2, rfl, ?_, ?_⟩
      · intro i j hij
        rw [hhits_cons] at hij
        rcases List.mem_cons.mp hij with heq | hmem
        · obtain ⟨hi, hj⟩ : i = d.col ∧ j = r := by
            simpa [Prod.ext_iff] using heq
          by_cases hin : (i, j) ∈ hitsOf ds
          · exact hhits i j hin
          · rw [hunch i j hin, hi, hj]
            refine ⟨⟨(genUpper rng).1, 255⟩, ?_, rfl,
              (genUpper_range rng).1, (genUpper_range rng).2⟩
            rw [symAt, List.getElem?_set_self hdc]
            exact hc1at
        · exact hhits i j hmem
      · intro i j hij
        rw [hhits_cons] at hij
        have hne : (i, j) ≠ (d.col, r) := fun h => hij (h ▸ List.mem_cons_self _ _)
        have hnotin : (i, j) ∉ hitsOf ds := fun h => hij (List.mem_cons_of_mem _ h)
        rw [hunch i j hnotin]
        by_cases hi : i = d.col
        · subst hi
          have hjr : j ≠ r := by
            intro h
            exact hne (by rw [h])
          rw [symAt, symAt, List.getElem?_set_self hdc,
            List.getElem?_eq_getElem hdc]
          dsimp only
          rw [hc1other j hjr]
          rw [List.get_eq_getElem]
        · rw [symAt, symAt, List.getElem?_set_ne (fun h => hi h.symm)]
    | none =>
      dsimp only
      obtain ⟨cols2, rng2, hrec, hhits, hunch⟩ :=
        updateDropletsAux_nowrap W H ds cols rng hcols hds2
      rw [hrec]
      dsimp only
      have hhits_cons : hitsOf (d :: ds) = hitsOf ds := by
        simp [hitsOf, List.filterMap_cons, hnn]
      refine ⟨cols2, rng2, rfl, ?_, ?_⟩
      · intro i j hij
        rw [hhits_cons] at hij
        exact hhits i j hij
      · intro i j hij
        rw [hhits_cons] at hij
        exact hunch i j hij

/-- C2: on a screen of width 3 and height 2 (well-formed columns) whose
droplets all sit at row `≤ 0` with valid columns, one
`Screen::update_droplets` advances every droplet by one row keeping its
column; the positions hit are exactly those of droplets whose new row
lies in `[0, 2)`, each holding a brightness-255 symbol with a character
in `'A'..='Z'`, and every other position is unchanged. -/
theorem update_droplets_low (s : Screen) (rng : Rng)
    (hw : s.width = 3) (hh : s.height = 2)
    (hlen : s.columns.length = 3)
    (hcols : ∀ c ∈ s.columns, c.symbols.length = 2)
    (hds : ∀ d ∈ s.droplets, d.col < 3 ∧ d.row ≤ 0) :
    ∃ s2 rng2, s.update_droplets rng = some (s2, rng2) ∧
      s2.droplets = s.droplets.map (fun d => ⟨d.row + 1, d.col⟩) ∧
      (∀ i j : Nat, (i, j) ∈ hitsOf s.droplets ↔
        ∃ d ∈ s.droplets, i = d.col ∧ (j : Int) = d.row + 1 ∧
          0 ≤ d.row + 1 ∧ d.row + 1 < 2) ∧
      (∀ i j, (i, j) ∈ hitsOf s.droplets →
        ∃ sym, symAt s2.columns i j = some sym ∧ sym.brightness = 255 ∧
          'A' ≤ sym.char ∧ sym.char ≤ 'Z') ∧
      (∀ i j, (i, j) ∉ hitsOf s.droplets →
        symAt s2.columns i j = symAt s.columns i j) := by
  have hcols2 : ∀ c ∈ s.columns, c.symbols.length = s.height := by
    rw [hh]; exact hcols
  have hds2 : ∀ d ∈ s.droplets, d.col < s.columns.length ∧
      d.row + 1 < (s.height : Int) := by
    intro d hd
    obtain ⟨h1, h2⟩ := hds d hd
    refine ⟨by rw [hlen]; exact h1, ?_⟩
    rw [hh]
    omega
  obtain ⟨cols2, rng2, haux, hhits, hunch⟩ :=
    updateDropletsAux_nowrap s.width s.height s.droplets s.columns rng
      hcols2 hds2
  refine ⟨⟨s.width, s.height, cols2,
      s.droplets.map (fun d => ⟨d.row + 1, d.col⟩)⟩, rng2,
    ?_, rfl, ?_, hhits, hunch⟩
  · rw [Screen.update_droplets, haux]
    rfl
  · intro i j
    rw [mem_hitsOf]
    constructor
    · rintro ⟨d, hd, h1, h2⟩
      refine ⟨d, hd, h1, h2, by rw [← h2]; exact Int.natCast_nonneg j, ?_⟩
      have := (hds d hd).2
      omega
    · rintro ⟨d, hd, h1, h2, _, _⟩
      exact ⟨d, hd, h1, h2⟩

/-- Witness for C2 at a concrete 3-by-2 screen with droplets at rows
`0`, `-1`, `-2` (so exactly the first two land in `[0, 2)`). -/
theorem update_droplets_low_witness :
    ∃ s2 rng2,
      Screen.update_droplets
        ⟨3, 2, List.replicate 3 (Column.new 2), [⟨0, 0⟩, ⟨-1, 1⟩, ⟨-2, 2⟩]⟩
        rng0 = some (s2, rng2) ∧
      s2.droplets = List.map (fun d => (⟨d.row + 1, d.col⟩ : Droplet))
        ([⟨0, 0⟩, ⟨-1, 1⟩, ⟨-2, 2⟩] : List Droplet) ∧
      (∀ i j : Nat, (i, j) ∈ hitsOf [⟨0, 0⟩, ⟨-1, 1⟩, ⟨-2, 2⟩] ↔
        ∃ d ∈ ([⟨0, 0⟩, ⟨-1, 1⟩, ⟨-2, 2⟩] : List Droplet),
          i = d.col ∧ (j : Int) = d.row + 1 ∧ 0 ≤ d.row + 1 ∧ d.row + 1 < 2) ∧
      (∀ i j, (i, j) ∈ hitsOf [⟨0, 0⟩, ⟨-1, 1⟩, ⟨-2, 2⟩] →
        ∃ sym, symAt s2.columns i j = some sym ∧ sym.brightness = 255 ∧
          'A' ≤ sym.char ∧ sym.char ≤ 'Z') ∧
      (∀ i j, (i, j) ∉ hitsOf [⟨0, 0⟩, ⟨-1, 1⟩, ⟨-2, 2⟩] →
        symAt s2.columns i j
          = symAt (List.replicate 3 (Column.new 2)) i j) :=
  update_droplets_low
    ⟨3, 2, List.replicate 3 (Column.new 2), [⟨0, 0⟩, ⟨-1, 1⟩, ⟨-2, 2⟩]⟩
    rng0 rfl rfl (by simp) (by decide) (by decide)

end Rain
